import Mathlib

/-!
# Staged category filter: a shallow embedding of `src/search/pinecone_result_filter.py`

The single operation of the repository is
`PineconeResultFilter.filter_by_categories`, which narrows a candidate
population by a sequence of per-category vector searches against an external
collaborator `search_by_category`.

Modelling choices:
* a search-result record (a Python dict that may lack keys) is a structure of
  `Option` fields: `none` models an absent key;
* similarity scores (Python floats) are modelled as `Int`: the algorithm only
  compares, maxes and sorts scores, so any linear order is faithful;
* Python dicts used as score accumulators are association lists
  (`List (String × Int)`): assigning to an existing key keeps its position,
  assigning a fresh key appends, exactly as CPython insertion order behaves;
* `embeddings` and `topic_filters` are read only through `.get`, so they are
  modelled as functions; the one *raw* indexing `embeddings[category_order[-1]]`
  (line 190 of the source) is modelled by a `none` result of the whole run;
* Python `sorted(key=..., reverse=True)` is a stable descending sort, modelled
  by a stable insertion sort with the order `b.score ≤ a.score` (an element is
  placed before the first earlier element whose score is not larger, so equal
  scores keep their original relative order, as CPython's stable sort does);
* an uncaught exception (`KeyError`) is modelled by the run returning `none`;
* the external searcher is a parameter `search : SearchCall → List Rec`; the
  run also records every call it issues to it (seeding call, refinement calls,
  final re-query call) so that claims about call arguments can be stated.
-/

/-- An embedding vector. Its contents are opaque to the filter (only passed
through to the searcher); the element type is irrelevant. -/
abbrev Emb := List Int

/-- A metadata-filter specification (a Python dict passed through unevaluated);
only its emptiness (`bool(filter)`) is inspected by the filter. -/
abbrev Meta := List (String × String)

/-- One result record returned by `search_by_category`: a dict that may lack
the `mb_sn` or `score` key (`none` = key absent). -/
structure Rec where
  mb_sn : Option String
  score : Option Int
deriving Repr, DecidableEq

/-- The argument tuple of one call to `search_by_category`.
`filter_mb_sns = none` models Python `None` (unrestricted);
`metadata_filter = []` models an absent/empty filter. -/
structure SearchCall where
  query_embedding : Emb
  category : String
  top_k : Nat
  filter_mb_sns : Option (List String)
  metadata_filter : Meta
deriving Repr, DecidableEq

/-- Truthiness of `r.get("mb_sn")`: present and non-empty. -/
def truthyStr : Option String → Bool
  | none => false
  | some s => s ≠ ""

/-- Assoc-list lookup, modelling `m[k]` / `m.get(k)` on a score dict. -/
def lookupScore : List (String × Int) → String → Option Int
  | [], _ => none
  | p :: rest, s => if p.1 = s then some p.2 else lookupScore rest s

/-- `if mb_sn not in scores or score > scores[mb_sn]: scores[mb_sn] = score`
(best-score-wins insertion with CPython dict ordering: updating an existing
key keeps its position, a new key is appended). -/
def addBest (m : List (String × Int)) (k : String) (v : Int) : List (String × Int) :=
  match lookupScore m k with
  | none => m ++ [(k, v)]
  | some old => if old < v then m.map (fun p => if p.1 = k then (p.1, v) else p) else m

/-- One iteration of the score-collection loop: take `r.get("mb_sn", "")`,
keep it when the stage's guard `keep` accepts it, fold `r.get("score", 0.0)`
in best-score-wins. -/
def bestStep (keep : String → Bool) (m : List (String × Int)) (r : Rec) :
    List (String × Int) :=
  if keep (r.mb_sn.getD "") then addBest m (r.mb_sn.getD "") (r.score.getD 0) else m

/-- The score-collection loop shared by the metadata-filtered seeding stage
(lines 77-84), both refinement branches (lines 153-159, 169-174) and the final
ranking (lines 196-203). -/
def bestFold (l : List Rec) (keep : String → Bool) : List (String × Int) :=
  l.foldl (bestStep keep) []

/-- `sorted(items, key=lambda x: x[1], reverse=True)`: stable descending sort
by score. -/
def sortDesc (l : List (String × Int)) : List (String × Int) :=
  l.insertionSort (fun a b => b.2 ≤ a.2)

/-- `list(OrderedDict.fromkeys(...))` (line 104): deduplicate keeping the
first occurrence, preserving order. -/
def dedupFirst (l : List String) : List String :=
  l.foldl (fun acc x => if x ∈ acc then acc else acc ++ [x]) []

/-- `(topic_filters or {}).get(category, {})` (lines 48, 121). -/
def getFilter (topic_filters : Option (String → Meta)) (c : String) : Meta :=
  match topic_filters with
  | none => []
  | some f => f c

/-- The initial search width (lines 52-64). The source's `final_count is None`
branch requests 10000 whether or not a metadata filter is present. -/
def initialCount (final_count : Option Nat) (has_metadata_filter : Bool) : Nat :=
  match final_count with
  | none => if has_metadata_filter then 10000 else 10000
  | some fc => if has_metadata_filter then 10000 else max (fc * 10) 2000

/-- `first_sorted` of the unfiltered seeding branch, projected to identifiers
(lines 99-104 before deduplication): sort the records with a truthy `mb_sn`
descending by score (stable), then read off `r["mb_sn"]` of each. -/
def seedOrder (first_results : List Rec) : List String :=
  ((first_results.filter (fun r => truthyStr r.mb_sn)).insertionSort
    (fun a b => b.score.getD 0 ≤ a.score.getD 0)).map (fun r => r.mb_sn.getD "")

/-- Stage-1 candidate construction from the first search's results
(lines 74-107). Returns `none` when the source raises: in the unfiltered
branch `sorted(..., key=lambda x: x["score"])` indexes the `score` key of
every kept record unguarded, so a kept record lacking it raises `KeyError`.
The truncation guard on line 106 reads `final_count is not None and not
has_metadata_filter`; its second conjunct is vacuously true in that branch. -/
def seedStage (first_results : List Rec) (has_metadata_filter : Bool)
    (final_count : Option Nat) : Option (List String) :=
  if has_metadata_filter then
    -- lines 77-94: best score per mb_sn, sort descending, keep the whole set
    some ((sortDesc (bestFold first_results (fun s => s ≠ ""))).map Prod.fst)
  else if (first_results.filter (fun r => truthyStr r.mb_sn)).any
      (fun r => r.score.isNone) then
    none
  else
    some (match final_count with
          | some fc => (dedupFirst (seedOrder first_results)).take (max (fc * 10) 10000)
          | none => dedupFirst (seedOrder first_results))

/-- The refinement search width (lines 129-137). -/
def refineWidth (final_count : Option Nat) (has_category_filter : Bool)
    (n : Nat) : Nat :=
  let search_count :=
    if final_count.isNone && has_category_filter then min (n * 3) 10000
    else min (n * 2) 10000
  max search_count 1

/-- Line 150: `set(r["mb_sn"] for r in results if r.get("mb_sn") in candidates)`
(`r.get` yields `None` for an absent key, and `None in list` is `False`). -/
def filteredSet (results : List Rec) (candidate_mb_sns : List String) : List String :=
  results.filterMap (fun r =>
    match r.mb_sn with
    | some s => if s ∈ candidate_mb_sns then some s else none
    | none => none)

/-- One refinement stage's candidate update from its search results
(lines 147-186). In the unfiltered branch the `next_candidate_count`
truncation (lines 179-186) takes the whole list when `final_count` is unset
(the source slices to the full length). -/
def refineStep (results : List Rec) (has_category_filter : Bool)
    (final_count : Option Nat) (candidate_mb_sns : List String) : List String :=
  if has_category_filter then
    (sortDesc (bestFold results
      (fun s => s ∈ filteredSet results candidate_mb_sns))).map Prod.fst
  else
    ((sortDesc (bestFold results (fun s => s ∈ candidate_mb_sns))).take
      (match final_count with
       | none => (sortDesc (bestFold results (fun s => s ∈ candidate_mb_sns))).length
       | some fc => max (fc * 3) 10000)).map Prod.fst

/-- The refinement loop over `category_order[1:]` (lines 114-186). Returns the
final candidate list together with the searcher calls issued, in order.
A category with no embedding is skipped (`continue`, line 118); an empty
candidate list stops the loop (`break`, line 127) *before* any call. -/
def refineLoop (search : SearchCall → List Rec) (embeddings : String → Option Emb)
    (topic_filters : Option (String → Meta)) (final_count : Option Nat) :
    List String → List String → List String × List SearchCall
  | [], candidate_mb_sns => (candidate_mb_sns, [])
  | category :: restCats, candidate_mb_sns =>
    match embeddings category with
    | none => refineLoop search embeddings topic_filters final_count restCats candidate_mb_sns
    | some embedding =>
      let category_filter := getFilter topic_filters category
      let has_category_filter := !category_filter.isEmpty
      if candidate_mb_sns.length = 0 then (candidate_mb_sns, [])
      else
        let call : SearchCall :=
          ⟨embedding, category,
           refineWidth final_count has_category_filter candidate_mb_sns.length,
           some candidate_mb_sns, category_filter⟩
        let results := search call
        let newCands := refineStep results has_category_filter final_count candidate_mb_sns
        let next := refineLoop search embeddings topic_filters final_count restCats newCands
        (next.1, call :: next.2)

/-- The final ranking (lines 196-219): best final-stage score per surviving
candidate, descending sort, optional truncation to `final_count`, then emit
`{"mb_sn": ..., "score": final_scores.get(mb_sn, 0.0)}` records. -/
def finalStage (final_results : List Rec) (candidate_mb_sns : List String)
    (final_count : Option Nat) : List (String × Int) :=
  let final_scores := bestFold final_results (fun s => s ∈ candidate_mb_sns)
  let final_sorted := sortDesc final_scores
  let final_mb_sns := final_sorted.map Prod.fst
  let final_mb_sns :=
    match final_count with
    | some fc => final_mb_sns.take fc
    | none => final_mb_sns
  final_mb_sns.map (fun s => (s, (lookupScore final_scores s).getD 0))

/-- The observable outcome of one run of `filter_by_categories`:
`result = none` models an uncaught `KeyError`; the three call fields record
the arguments of every `search_by_category` invocation actually issued
(seeding, refinement stages in order, final re-query); `survivors` records
the candidate list entering the final-ranking step, when it is reached. -/
structure RunOut where
  result : Option (List (String × Int))
  seedCall : Option SearchCall
  refineCalls : List SearchCall
  finalCall : Option SearchCall
  survivors : Option (List String)
deriving Repr, DecidableEq

/-- The seeding search call (lines 66-72): first category, initial width,
no allow-list, the first category's metadata filter. -/
def seedCallOf (first_embedding : Emb) (first_category : String)
    (final_count : Option Nat) (topic_filters : Option (String → Meta)) : SearchCall :=
  ⟨first_embedding, first_category,
   initialCount final_count (!(getFilter topic_filters first_category).isEmpty),
   none, getFilter topic_filters first_category⟩

/-- The final re-query and result emission (lines 188-221). Line 190 indexes
`embeddings[category_order[-1]]` unguarded: a missing entry there is an
uncaught `KeyError`, modelled by `result = none`. Note the re-query is issued
whatever the surviving candidate list is, even empty. -/
def finalPhase (search : SearchCall → List Rec) (embeddings : String → Option Emb)
    (first_category : String) (rest : List String) (final_count : Option Nat)
    (seed : SearchCall) (rcalls : List SearchCall) (cands : List String) : RunOut :=
  match embeddings (List.getLastD rest first_category) with
  | none => ⟨none, some seed, rcalls, none, some cands⟩
  | some last_embedding =>
    ⟨some (finalStage
        (search ⟨last_embedding, List.getLastD rest first_category,
          cands.length, some cands, []⟩) cands final_count),
     some seed, rcalls,
     some ⟨last_embedding, List.getLastD rest first_category,
       cands.length, some cands, []⟩,
     some cands⟩

/-- Everything after the seeding call has been issued: stage-1 candidate
construction (lines 74-107), the early return on an empty candidate list
(lines 109-111), the refinement loop (lines 113-186) and the final phase. -/
def seededPhase (search : SearchCall → List Rec) (embeddings : String → Option Emb)
    (first_category : String) (rest : List String) (final_count : Option Nat)
    (topic_filters : Option (String → Meta)) (seed : SearchCall) : RunOut :=
  match seedStage (search seed) (!(getFilter topic_filters first_category).isEmpty)
      final_count with
  | none => ⟨none, some seed, [], none, none⟩
  | some cands0 =>
    if cands0.length = 0 then ⟨some [], some seed, [], none, none⟩
    else
      finalPhase search embeddings first_category rest final_count seed
        (refineLoop search embeddings topic_filters final_count rest cands0).2
        (refineLoop search embeddings topic_filters final_count rest cands0).1

/-- `PineconeResultFilter.filter_by_categories` (lines 16-221), instrumented
with the list of searcher calls it issues. -/
def filter_by_categories (search : SearchCall → List Rec)
    (embeddings : String → Option Emb) (category_order : List String)
    (final_count : Option Nat) (topic_filters : Option (String → Meta)) : RunOut :=
  match category_order with
  | [] => ⟨some [], none, [], none, none⟩
  | first_category :: rest =>
    match embeddings first_category with
    | none => ⟨some [], none, [], none, none⟩
    | some first_embedding =>
      seededPhase search embeddings first_category rest final_count topic_filters
        (seedCallOf first_embedding first_category final_count topic_filters)

/-! ## Concrete fixtures (embedding maps and searcher behaviours) used by the
closed counterexamples and witnesses below -/

/-- Embeddings present for category a only. -/
def embOnlyA : String → Option Emb := fun c => if c = "a" then some [1] else none

/-- Embeddings present for categories a and b. -/
def embAB : String → Option Emb :=
  fun c => if c = "a" then some [1] else if c = "b" then some [2] else none

/-- Embeddings present for categories a and c (b missing). -/
def embAC : String → Option Emb :=
  fun c => if c = "a" then some [1] else if c = "c" then some [3] else none

/-- A searcher that always returns one well-formed record. -/
def searchConstX : SearchCall → List Rec := fun _ => [⟨some "x", some 5⟩]

/-- A searcher that answers only unrestricted (seeding) calls. -/
def searchSeedOnlyX : SearchCall → List Rec :=
  fun c => if c.filter_mb_sns = none then [⟨some "x", some 5⟩] else []

/-- A searcher that answers only calls for category a. -/
def searchCatAOnly : SearchCall → List Rec :=
  fun c => if c.category = "a" then [⟨some "x", some 5⟩] else []

/-- A searcher returning a record with an identifier but no score field. -/
def searchNoScore : SearchCall → List Rec := fun _ => [⟨some "x", none⟩]

/-- A searcher answering only seeding calls, with two scored records. -/
def searchSeedXY : SearchCall → List Rec :=
  fun c => if c.filter_mb_sns = none then
    [⟨some "x", some 5⟩, ⟨some "y", some 4⟩] else []

/-- A searcher that always returns one record for identifier y. -/
def searchOnlyY : SearchCall → List Rec := fun _ => [⟨some "y", some 2⟩]

/-- A searcher that never returns anything. -/
def searchNone : SearchCall → List Rec := fun _ => []

/-! ## Basic facts about the score-map operations -/

theorem lookupScore_eq_none {m : List (String × Int)} {s : String} :
    lookupScore m s = none ↔ s ∉ m.map Prod.fst := by
  induction m with
  | nil => simp [lookupScore]
  | cons p rest ih =>
    by_cases h : p.1 = s
    · simp [lookupScore, h]
    · simp [lookupScore, h, ih, Ne.symm h]

theorem lookupScore_isSome_iff {m : List (String × Int)} {s : String} :
    (lookupScore m s).isSome ↔ s ∈ m.map Prod.fst := by
  induction m with
  | nil => simp [lookupScore]
  | cons p rest ih =>
    by_cases h : p.1 = s
    · simp [lookupScore, h]
    · simp [lookupScore, h, ih, Ne.symm h]

theorem lookupScore_of_mem_nodup {m : List (String × Int)} {s : String} {v : Int}
    (hn : (m.map Prod.fst).Nodup) (hm : (s, v) ∈ m) : lookupScore m s = some v := by
  induction m with
  | nil => simp at hm
  | cons p rest ih =>
    have hn' : (rest.map Prod.fst).Nodup := (List.nodup_cons.mp (by simpa using hn)).2
    rcases List.mem_cons.mp hm with h | h
    · subst h
      simp [lookupScore]
    · have hs : s ∈ rest.map Prod.fst := List.mem_map.mpr ⟨(s, v), h, rfl⟩
      have hne : p.1 ≠ s := by
        intro heq
        have hnotin : p.1 ∉ rest.map Prod.fst := (List.nodup_cons.mp (by simpa using hn)).1
        exact hnotin (heq ▸ hs)
      simp only [lookupScore, if_neg hne]
      exact ih hn' h

theorem keys_addBest_found {m : List (String × Int)} {k : String} {v : Int}
    (h : (lookupScore m k).isSome) :
    (addBest m k v).map Prod.fst = m.map Prod.fst := by
  unfold addBest
  match hl : lookupScore m k with
  | none => rw [hl] at h; simp at h
  | some old =>
    by_cases hv : old < v
    · simp only [if_pos hv, List.map_map]
      apply List.map_congr_left
      intro p _
      by_cases hp : p.1 = k <;> simp [hp]
    · simp [if_neg hv]

theorem keys_addBest_new {m : List (String × Int)} {k : String} {v : Int}
    (h : lookupScore m k = none) :
    (addBest m k v).map Prod.fst = m.map Prod.fst ++ [k] := by
  unfold addBest
  rw [h]
  simp

theorem mem_keys_addBest {m : List (String × Int)} {k s : String} {v : Int} :
    s ∈ (addBest m k v).map Prod.fst ↔ s ∈ m.map Prod.fst ∨ s = k := by
  match hl : lookupScore m k with
  | none =>
    rw [keys_addBest_new hl]
    simp
  | some old =>
    rw [keys_addBest_found (by rw [hl]; rfl)]
    have hk : k ∈ m.map Prod.fst := lookupScore_isSome_iff.mp (by rw [hl]; rfl)
    constructor
    · exact Or.inl
    · rintro (h | rfl)
      · exact h
      · exact hk

theorem nodup_keys_addBest {m : List (String × Int)} {k : String} {v : Int}
    (h : (m.map Prod.fst).Nodup) : ((addBest m k v).map Prod.fst).Nodup := by
  match hl : lookupScore m k with
  | none =>
    rw [keys_addBest_new hl, List.nodup_append]
    refine ⟨h, by simp, ?_⟩
    intro a ha hb
    rw [List.mem_singleton] at hb
    subst hb
    exact lookupScore_eq_none.mp hl ha
  | some old =>
    rw [keys_addBest_found (by rw [hl]; rfl)]
    exact h

theorem nodup_keys_foldl_bestStep (keep : String → Bool) (l : List Rec) :
    ∀ acc : List (String × Int), (acc.map Prod.fst).Nodup →
      ((l.foldl (bestStep keep) acc).map Prod.fst).Nodup := by
  induction l with
  | nil => intro acc h; simpa using h
  | cons r rest ih =>
    intro acc h
    rw [List.foldl_cons]
    refine ih _ ?_
    unfold bestStep
    split
    · exact nodup_keys_addBest h
    · exact h

theorem nodup_keys_bestFold (l : List Rec) (keep : String → Bool) :
    ((bestFold l keep).map Prod.fst).Nodup :=
  nodup_keys_foldl_bestStep keep l [] (by simp)

theorem mem_keys_foldl_bestStep (keep : String → Bool) (l : List Rec) :
    ∀ (acc : List (String × Int)) (s : String),
      (s ∈ (l.foldl (bestStep keep) acc).map Prod.fst ↔
        s ∈ acc.map Prod.fst ∨ (keep s = true ∧ ∃ r ∈ l, r.mb_sn.getD "" = s)) := by
  induction l with
  | nil => intro acc s; simp
  | cons r rest ih =>
    intro acc s
    rw [List.foldl_cons, ih]
    have hstep : s ∈ (bestStep keep acc r).map Prod.fst ↔
        s ∈ acc.map Prod.fst ∨ (keep s = true ∧ r.mb_sn.getD "" = s) := by
      unfold bestStep
      split
      · rw [mem_keys_addBest]
        constructor
        · rintro (h | rfl)
          · exact Or.inl h
          · exact Or.inr ⟨by assumption, rfl⟩
        · rintro (h | ⟨_, rfl⟩)
          · exact Or.inl h
          · exact Or.inr rfl
      · constructor
        · exact Or.inl
        · rintro (h | ⟨hk, rfl⟩)
          · exact h
          · exact absurd hk (by simp_all)
    rw [hstep]
    constructor
    · rintro ((h | ⟨hk, hr⟩) | ⟨hk, r', hr', hs⟩)
      · exact Or.inl h
      · exact Or.inr ⟨hk, r, List.mem_cons_self r rest, hr⟩
      · exact Or.inr ⟨hk, r', List.mem_cons_of_mem r hr', hs⟩
    · rintro (h | ⟨hk, r', hr', hs⟩)
      · exact Or.inl (Or.inl h)
      · rcases List.mem_cons.mp hr' with rfl | hmem
        · exact Or.inl (Or.inr ⟨hk, hs⟩)
        · exact Or.inr ⟨hk, r', hmem, hs⟩

theorem mem_keys_bestFold {l : List Rec} {keep : String → Bool} {s : String} :
    s ∈ (bestFold l keep).map Prod.fst ↔
      keep s = true ∧ ∃ r ∈ l, r.mb_sn.getD "" = s := by
  have := mem_keys_foldl_bestStep keep l [] s
  simpa [bestFold] using this

theorem sortDesc_perm (l : List (String × Int)) : (sortDesc l).Perm l :=
  List.perm_insertionSort _ l

theorem mem_sortDesc {l : List (String × Int)} {p : String × Int} :
    p ∈ sortDesc l ↔ p ∈ l :=
  (sortDesc_perm l).mem_iff

theorem sortDesc_pairwise (l : List (String × Int)) :
    (sortDesc l).Pairwise (fun a b => b.2 ≤ a.2) := by
  haveI : IsTotal (String × Int) (fun a b => b.2 ≤ a.2) :=
    ⟨fun a b => le_total b.2 a.2⟩
  haveI : IsTrans (String × Int) (fun a b => b.2 ≤ a.2) :=
    ⟨fun a b c h1 h2 => le_trans h2 h1⟩
  exact List.sorted_insertionSort _ l

theorem mem_dedupFirst_aux (l : List String) :
    ∀ (acc : List String) (x : String),
      (x ∈ l.foldl (fun acc y => if y ∈ acc then acc else acc ++ [y]) acc ↔
        x ∈ acc ∨ x ∈ l) := by
  induction l with
  | nil => intro acc x; simp
  | cons y rest ih =>
    intro acc x
    rw [List.foldl_cons, ih]
    by_cases hy : y ∈ acc
    · simp only [if_pos hy]
      constructor
      · rintro (h | h)
        · exact Or.inl h
        · exact Or.inr (List.mem_cons_of_mem y h)
      · rintro (h | h)
        · exact Or.inl h
        · rcases List.mem_cons.mp h with rfl | h
          · exact Or.inl hy
          · exact Or.inr h
    · simp only [if_neg hy, List.mem_append, List.mem_singleton, List.mem_cons]
      tauto

theorem mem_dedupFirst {l : List String} {x : String} :
    x ∈ dedupFirst l ↔ x ∈ l := by
  have := mem_dedupFirst_aux l [] x
  simpa [dedupFirst] using this

/-! ## Facts about the final-ranking stage -/

theorem map_emit_eq {m0 : List (String × Int)} :
    ∀ {m : List (String × Int)}, (∀ p ∈ m, lookupScore m0 p.1 = some p.2) →
      (m.map Prod.fst).map (fun s => (s, (lookupScore m0 s).getD 0)) = m := by
  intro m
  induction m with
  | nil => intro _; simp
  | cons p rest ih =>
    intro h
    have h1 := h p (List.mem_cons_self p rest)
    have h2 := ih (fun q hq => h q (List.mem_cons_of_mem p hq))
    simp [h1, h2]

theorem lookup_sortDesc_bestFold {l : List Rec} {keep : String → Bool}
    {p : String × Int} (hp : p ∈ sortDesc (bestFold l keep)) :
    lookupScore (bestFold l keep) p.1 = some p.2 :=
  lookupScore_of_mem_nodup (nodup_keys_bestFold l keep)
    (by simpa using mem_sortDesc.mp hp)

theorem finalStage_none_eq (fr : List Rec) (cands : List String) :
    finalStage fr cands none = sortDesc (bestFold fr (fun s => s ∈ cands)) := by
  unfold finalStage
  exact map_emit_eq (fun p hp => lookup_sortDesc_bestFold hp)

theorem finalStage_some_eq (fr : List Rec) (cands : List String) (k : Nat) :
    finalStage fr cands (some k) =
      (sortDesc (bestFold fr (fun s => s ∈ cands))).take k := by
  unfold finalStage
  rw [List.map_take, map_emit_eq (fun p hp => lookup_sortDesc_bestFold hp)]

theorem finalStage_take (fr : List Rec) (cands : List String) (k : Nat) :
    finalStage fr cands (some k) = (finalStage fr cands none).take k := by
  rw [finalStage_none_eq, finalStage_some_eq]

theorem nodup_ids_finalStage (fr : List Rec) (cands : List String)
    (fc : Option Nat) : ((finalStage fr cands fc).map Prod.fst).Nodup := by
  have hnod : ((sortDesc (bestFold fr (fun s => s ∈ cands))).map Prod.fst).Nodup :=
    (((sortDesc_perm _).map Prod.fst).nodup_iff).mpr (nodup_keys_bestFold _ _)
  cases fc with
  | none => rw [finalStage_none_eq]; exact hnod
  | some k =>
    rw [finalStage_some_eq]
    exact ((List.take_sublist k _).map Prod.fst).nodup hnod

theorem pairwise_finalStage (fr : List Rec) (cands : List String)
    (fc : Option Nat) : (finalStage fr cands fc).Pairwise (fun a b => b.2 ≤ a.2) := by
  cases fc with
  | none => rw [finalStage_none_eq]; exact sortDesc_pairwise _
  | some k =>
    rw [finalStage_some_eq]
    exact List.Pairwise.sublist (List.take_sublist k _) (sortDesc_pairwise _)

theorem bestFold_nil_cands (fr : List Rec) :
    bestFold fr (fun s => s ∈ ([] : List String)) = [] := by
  unfold bestFold
  induction fr with
  | nil => rfl
  | cons r rest ih =>
    rw [List.foldl_cons]
    have hstep : bestStep (fun s => decide (s ∈ ([] : List String))) [] r = [] := by
      simp [bestStep]
    rw [hstep]
    exact ih

theorem finalStage_nil (fr : List Rec) (fc : Option Nat) :
    finalStage fr [] fc = [] := by
  unfold finalStage
  rw [bestFold_nil_cands]
  cases fc <;> simp [sortDesc]

theorem mem_finalStage_sub {fr : List Rec} {cands : List String}
    {fc : Option Nat} {p : String × Int} (hp : p ∈ finalStage fr cands fc) :
    p.1 ∈ cands := by
  have hfull : p ∈ sortDesc (bestFold fr (fun s => s ∈ cands)) := by
    cases fc with
    | none => rw [finalStage_none_eq] at hp; exact hp
    | some k => rw [finalStage_some_eq] at hp; exact (List.take_sublist k _).subset hp
  have hkey : p.1 ∈ (bestFold fr (fun s => s ∈ cands)).map Prod.fst :=
    List.mem_map.mpr ⟨p, mem_sortDesc.mp hfull, rfl⟩
  have h2 := mem_keys_bestFold.mp hkey
  simpa using h2.1

theorem mem_ids_finalStage_none {fr : List Rec} {cands : List String} {s : String} :
    s ∈ (finalStage fr cands none).map Prod.fst ↔
      s ∈ cands ∧ ∃ r ∈ fr, r.mb_sn.getD "" = s := by
  rw [finalStage_none_eq]
  constructor
  · intro h
    obtain ⟨p, hp, rfl⟩ := List.mem_map.mp h
    have hkey : p.1 ∈ (bestFold fr (fun s => s ∈ cands)).map Prod.fst :=
      List.mem_map.mpr ⟨p, mem_sortDesc.mp hp, rfl⟩
    have h2 := mem_keys_bestFold.mp hkey
    exact ⟨by simpa using h2.1, h2.2⟩
  · rintro ⟨h1, h2⟩
    have hkey : s ∈ (bestFold fr (fun s => s ∈ cands)).map Prod.fst :=
      mem_keys_bestFold.mpr ⟨by simpa using h1, h2⟩
    exact (((sortDesc_perm _).map Prod.fst).mem_iff).mpr hkey

/-! ## Facts about the refinement stages -/

theorem mem_ids_sortDesc_bestFold {l : List Rec} {keep : String → Bool} {s : String} :
    s ∈ (sortDesc (bestFold l keep)).map Prod.fst ↔
      s ∈ (bestFold l keep).map Prod.fst :=
  ((sortDesc_perm _).map Prod.fst).mem_iff

theorem mem_filteredSet_sub {results : List Rec} {cands : List String} {s : String}
    (h : s ∈ filteredSet results cands) : s ∈ cands := by
  unfold filteredSet at h
  obtain ⟨r, _, hr⟩ := List.mem_filterMap.mp h
  match hm : r.mb_sn with
  | none => rw [hm] at hr; simp at hr
  | some t =>
    rw [hm] at hr
    simp at hr
    obtain ⟨ht, rfl⟩ := hr
    exact ht

theorem mem_refineStep_sub {results : List Rec} {hasF : Bool} {fc : Option Nat}
    {cands : List String} {s : String}
    (h : s ∈ refineStep results hasF fc cands) : s ∈ cands := by
  unfold refineStep at h
  split at h
  · have hkey := mem_keys_bestFold.mp (mem_ids_sortDesc_bestFold.mp h)
    exact mem_filteredSet_sub (by simpa using hkey.1)
  · obtain ⟨p, hp, rfl⟩ := List.mem_map.mp h
    have hfull : p ∈ sortDesc (bestFold results (fun s => s ∈ cands)) :=
      (List.take_sublist _ _).subset hp
    have hkey : p.1 ∈ (bestFold results (fun s => s ∈ cands)).map Prod.fst :=
      List.mem_map.mpr ⟨p, mem_sortDesc.mp hfull, rfl⟩
    have h2 := mem_keys_bestFold.mp hkey
    simpa using h2.1

theorem refineLoop_skip {search : SearchCall → List Rec}
    {embeddings : String → Option Emb} {tf : Option (String → Meta)}
    {fc : Option Nat} {cat : String} {restCats : List String}
    {cands : List String} (h : embeddings cat = none) :
    refineLoop search embeddings tf fc (cat :: restCats) cands =
      refineLoop search embeddings tf fc restCats cands := by
  simp [refineLoop, h]

theorem refineLoop_nil_cands (search : SearchCall → List Rec)
    (embeddings : String → Option Emb) (tf : Option (String → Meta))
    (fc : Option Nat) :
    ∀ cats, refineLoop search embeddings tf fc cats [] = ([], []) := by
  intro cats
  induction cats with
  | nil => rfl
  | cons c rest ih =>
    cases h : embeddings c with
    | none => rw [refineLoop_skip h]; exact ih
    | some e => simp [refineLoop, h]

theorem refineLoop_cons_some {search : SearchCall → List Rec}
    {embeddings : String → Option Emb} {tf : Option (String → Meta)}
    {fc : Option Nat} {cat : String} {restCats : List String}
    {cands : List String} {e : Emb} (hc : embeddings cat = some e)
    (hlen : ¬ cands.length = 0) :
    refineLoop search embeddings tf fc (cat :: restCats) cands =
      ((refineLoop search embeddings tf fc restCats
          (refineStep (search ⟨e, cat,
              refineWidth fc (!(getFilter tf cat).isEmpty) cands.length,
              some cands, getFilter tf cat⟩)
            (!(getFilter tf cat).isEmpty) fc cands)).1,
        ⟨e, cat, refineWidth fc (!(getFilter tf cat).isEmpty) cands.length,
            some cands, getFilter tf cat⟩ ::
          (refineLoop search embeddings tf fc restCats
            (refineStep (search ⟨e, cat,
                refineWidth fc (!(getFilter tf cat).isEmpty) cands.length,
                some cands, getFilter tf cat⟩)
              (!(getFilter tf cat).isEmpty) fc cands)).2) := by
  simp [refineLoop, hc, hlen]

theorem refineLoop_subset {search : SearchCall → List Rec}
    {embeddings : String → Option Emb} {tf : Option (String → Meta)}
    {fc : Option Nat} :
    ∀ cats cands s, s ∈ (refineLoop search embeddings tf fc cats cands).1 →
      s ∈ cands := by
  intro cats
  induction cats with
  | nil => intro cands s h; simpa [refineLoop] using h
  | cons c rest ih =>
    intro cands s h
    cases hc : embeddings c with
    | none =>
      rw [refineLoop_skip hc] at h
      exact ih _ _ h
    | some e =>
      by_cases hlen : cands.length = 0
      · simp [refineLoop, hc, hlen] at h
        exact h
      · rw [refineLoop_cons_some hc hlen] at h
        exact mem_refineStep_sub (ih _ _ h)

theorem refineLoop_calls {search : SearchCall → List Rec}
    {embeddings : String → Option Emb} {tf : Option (String → Meta)}
    {fc : Option Nat} :
    ∀ cats cands c, c ∈ (refineLoop search embeddings tf fc cats cands).2 →
      ∃ L, c.filter_mb_sns = some L ∧ L ≠ [] ∧
        c.top_k = refineWidth fc (!c.metadata_filter.isEmpty) L.length := by
  intro cats
  induction cats with
  | nil => intro cands c h; simp [refineLoop] at h
  | cons cat rest ih =>
    intro cands c h
    cases hc : embeddings cat with
    | none =>
      rw [refineLoop_skip hc] at h
      exact ih _ _ h
    | some e =>
      by_cases hlen : cands.length = 0
      · simp [refineLoop, hc, hlen] at h
      · rw [refineLoop_cons_some hc hlen] at h
        rcases List.mem_cons.mp h with rfl | hmem
        · refine ⟨cands, rfl, ?_, rfl⟩
          intro hnil
          exact hlen (by rw [hnil]; rfl)
        · exact ih _ _ hmem

theorem seedStage_no_empty {fr : List Rec} {hasF : Bool} {fc : Option Nat}
    {c : List String} (h : seedStage fr hasF fc = some c) : "" ∉ c := by
  unfold seedStage at h
  split at h
  · injection h with h
    subst h
    intro hmem
    have hkey := mem_keys_bestFold.mp (mem_ids_sortDesc_bestFold.mp hmem)
    simp at hkey
  · split at h
    · exact absurd h (by simp)
    · injection h with h
      subst h
      intro hmem
      have hd : "" ∈ dedupFirst (seedOrder fr) := by
        cases fc with
        | none => exact hmem
        | some k => exact (List.take_sublist _ _).subset hmem
      have hin := mem_dedupFirst.mp hd
      unfold seedOrder at hin
      obtain ⟨r, hr, heq⟩ := List.mem_map.mp hin
      have hk : r ∈ fr.filter (fun r => truthyStr r.mb_sn) :=
        (List.perm_insertionSort _ _).mem_iff.mp hr
      have ht : truthyStr r.mb_sn := by
        simpa using (List.mem_filter.mp hk).2
      match hm : r.mb_sn with
      | none => rw [hm] at ht; simp [truthyStr] at ht
      | some t =>
        rw [hm] at ht heq
        simp [truthyStr] at ht
        simp at heq
        exact ht heq

/-! ## Equation lemmas for the run phases -/

theorem filter_by_categories_nil (search : SearchCall → List Rec)
    (embeddings : String → Option Emb) (fc : Option Nat)
    (tf : Option (String → Meta)) :
    filter_by_categories search embeddings [] fc tf =
      ⟨some [], none, [], none, none⟩ := rfl

theorem filter_by_categories_first_missing {search : SearchCall → List Rec}
    {embeddings : String → Option Emb} {first_category : String}
    {rest : List String} {fc : Option Nat} {tf : Option (String → Meta)}
    (h1 : embeddings first_category = none) :
    filter_by_categories search embeddings (first_category :: rest) fc tf =
      ⟨some [], none, [], none, none⟩ := by
  have hdef : filter_by_categories search embeddings (first_category :: rest) fc tf =
      (match embeddings first_category with
       | none => ⟨some [], none, [], none, none⟩
       | some emb => seededPhase search embeddings first_category rest fc tf
           (seedCallOf emb first_category fc tf)) := rfl
  rw [hdef, h1]

theorem filter_by_categories_first_some {search : SearchCall → List Rec}
    {embeddings : String → Option Emb} {first_category : String}
    {rest : List String} {fc : Option Nat} {tf : Option (String → Meta)} {e : Emb}
    (h1 : embeddings first_category = some e) :
    filter_by_categories search embeddings (first_category :: rest) fc tf =
      seededPhase search embeddings first_category rest fc tf
        (seedCallOf e first_category fc tf) := by
  have hdef : filter_by_categories search embeddings (first_category :: rest) fc tf =
      (match embeddings first_category with
       | none => ⟨some [], none, [], none, none⟩
       | some emb => seededPhase search embeddings first_category rest fc tf
           (seedCallOf emb first_category fc tf)) := rfl
  rw [hdef, h1]

theorem seededPhase_eq_raise {search : SearchCall → List Rec}
    {embeddings : String → Option Emb} {first_category : String}
    {rest : List String} {fc : Option Nat} {tf : Option (String → Meta)}
    {seed : SearchCall}
    (h2 : seedStage (search seed) (!(getFilter tf first_category).isEmpty) fc = none) :
    seededPhase search embeddings first_category rest fc tf seed =
      ⟨none, some seed, [], none, none⟩ := by
  unfold seededPhase
  rw [h2]

theorem seededPhase_eq_empty {search : SearchCall → List Rec}
    {embeddings : String → Option Emb} {first_category : String}
    {rest : List String} {fc : Option Nat} {tf : Option (String → Meta)}
    {seed : SearchCall} {cands0 : List String}
    (h2 : seedStage (search seed) (!(getFilter tf first_category).isEmpty) fc
      = some cands0)
    (h3 : cands0.length = 0) :
    seededPhase search embeddings first_category rest fc tf seed =
      ⟨some [], some seed, [], none, none⟩ := by
  unfold seededPhase
  rw [h2]
  dsimp only []
  rw [if_pos h3]

theorem seededPhase_eq_final {search : SearchCall → List Rec}
    {embeddings : String → Option Emb} {first_category : String}
    {rest : List String} {fc : Option Nat} {tf : Option (String → Meta)}
    {seed : SearchCall} {cands0 : List String}
    (h2 : seedStage (search seed) (!(getFilter tf first_category).isEmpty) fc
      = some cands0)
    (h3 : ¬ cands0.length = 0) :
    seededPhase search embeddings first_category rest fc tf seed =
      finalPhase search embeddings first_category rest fc seed
        (refineLoop search embeddings tf fc rest cands0).2
        (refineLoop search embeddings tf fc rest cands0).1 := by
  unfold seededPhase
  rw [h2]
  dsimp only []
  rw [if_neg h3]

theorem finalPhase_eq_raise {search : SearchCall → List Rec}
    {embeddings : String → Option Emb} {first_category : String}
    {rest : List String} {fc : Option Nat} {seed : SearchCall}
    {rcalls : List SearchCall} {cands : List String}
    (he : embeddings (List.getLastD rest first_category) = none) :
    finalPhase search embeddings first_category rest fc seed rcalls cands =
      ⟨none, some seed, rcalls, none, some cands⟩ := by
  unfold finalPhase
  rw [he]

theorem finalPhase_eq_some {search : SearchCall → List Rec}
    {embeddings : String → Option Emb} {first_category : String}
    {rest : List String} {fc : Option Nat} {seed : SearchCall}
    {rcalls : List SearchCall} {cands : List String} {e : Emb}
    (he : embeddings (List.getLastD rest first_category) = some e) :
    finalPhase search embeddings first_category rest fc seed rcalls cands =
      ⟨some (finalStage
          (search ⟨e, List.getLastD rest first_category, cands.length, some cands, []⟩)
          cands fc),
       some seed, rcalls,
       some ⟨e, List.getLastD rest first_category, cands.length, some cands, []⟩,
       some cands⟩ := by
  unfold finalPhase
  rw [he]

/-! ## Run-level helper lemmas -/

theorem finalPhase_seedCall (search : SearchCall → List Rec)
    (embeddings : String → Option Emb) (first_category : String)
    (rest : List String) (fc : Option Nat) (seed : SearchCall)
    (rcalls : List SearchCall) (cands : List String) :
    (finalPhase search embeddings first_category rest fc seed rcalls cands).seedCall =
      some seed := by
  unfold finalPhase
  cases embeddings (List.getLastD rest first_category) <;> rfl

theorem finalPhase_refineCalls (search : SearchCall → List Rec)
    (embeddings : String → Option Emb) (first_category : String)
    (rest : List String) (fc : Option Nat) (seed : SearchCall)
    (rcalls : List SearchCall) (cands : List String) :
    (finalPhase search embeddings first_category rest fc seed rcalls cands).refineCalls =
      rcalls := by
  unfold finalPhase
  cases embeddings (List.getLastD rest first_category) <;> rfl

theorem seededPhase_seedCall (search : SearchCall → List Rec)
    (embeddings : String → Option Emb) (first_category : String)
    (rest : List String) (fc : Option Nat) (tf : Option (String → Meta))
    (seed : SearchCall) :
    (seededPhase search embeddings first_category rest fc tf seed).seedCall =
      some seed := by
  cases h2 : seedStage (search seed) (!(getFilter tf first_category).isEmpty) fc with
  | none => rw [seededPhase_eq_raise h2]
  | some cands0 =>
    by_cases h3 : cands0.length = 0
    · rw [seededPhase_eq_empty h2 h3]
    · rw [seededPhase_eq_final h2 h3]
      exact finalPhase_seedCall ..

theorem run_seedCall {search : SearchCall → List Rec}
    {embeddings : String → Option Emb} {first_category : String}
    {rest : List String} {fc : Option Nat} {tf : Option (String → Meta)} {e : Emb}
    (h1 : embeddings first_category = some e) :
    (filter_by_categories search embeddings (first_category :: rest) fc tf).seedCall =
      some (seedCallOf e first_category fc tf) := by
  rw [filter_by_categories_first_some h1]
  exact seededPhase_seedCall ..

theorem run_final_shape {search : SearchCall → List Rec}
    {embeddings : String → Option Emb} {first_category : String}
    {rest : List String} {fc : Option Nat} {tf : Option (String → Meta)}
    {cands : List String} {e : Emb}
    (hs : (filter_by_categories search embeddings (first_category :: rest) fc tf).survivors
      = some cands)
    (he : embeddings (List.getLastD rest first_category) = some e) :
    (filter_by_categories search embeddings (first_category :: rest) fc tf).finalCall =
      some ⟨e, List.getLastD rest first_category, cands.length, some cands, []⟩ ∧
    (filter_by_categories search embeddings (first_category :: rest) fc tf).result =
      some (finalStage
        (search ⟨e, List.getLastD rest first_category, cands.length, some cands, []⟩)
        cands fc) := by
  cases h1 : embeddings first_category with
  | none =>
    rw [filter_by_categories_first_missing h1] at hs
    simp at hs
  | some emb1 =>
    rw [filter_by_categories_first_some h1] at hs ⊢
    cases h2 : seedStage (search (seedCallOf emb1 first_category fc tf))
        (!(getFilter tf first_category).isEmpty) fc with
    | none =>
      rw [seededPhase_eq_raise h2] at hs
      simp at hs
    | some cands0 =>
      by_cases h3 : cands0.length = 0
      · rw [seededPhase_eq_empty h2 h3] at hs
        simp at hs
      · rw [seededPhase_eq_final h2 h3] at hs ⊢
        rw [finalPhase_eq_some he] at hs ⊢
        dsimp only [] at hs ⊢
        injection hs with hs
        subst hs
        exact ⟨rfl, rfl⟩

theorem run_result_shape (search : SearchCall → List Rec)
    (embeddings : String → Option Emb) (cats : List String) (fc : Option Nat)
    (tf : Option (String → Meta)) :
    (filter_by_categories search embeddings cats fc tf).result = none ∨
    (filter_by_categories search embeddings cats fc tf).result = some [] ∨
    ∃ fr cands, "" ∉ cands ∧
      (filter_by_categories search embeddings cats fc tf).result =
        some (finalStage fr cands fc) := by
  cases cats with
  | nil => right; left; rfl
  | cons first_category rest =>
    cases h1 : embeddings first_category with
    | none => right; left; rw [filter_by_categories_first_missing h1]
    | some e =>
      rw [filter_by_categories_first_some h1]
      cases h2 : seedStage (search (seedCallOf e first_category fc tf))
          (!(getFilter tf first_category).isEmpty) fc with
      | none => left; rw [seededPhase_eq_raise h2]
      | some cands0 =>
        by_cases h3 : cands0.length = 0
        · right; left; rw [seededPhase_eq_empty h2 h3]
        · rw [seededPhase_eq_final h2 h3]
          cases he : embeddings (List.getLastD rest first_category) with
          | none => left; rw [finalPhase_eq_raise he]
          | some le =>
            right; right
            refine ⟨search ⟨le, List.getLastD rest first_category,
                (refineLoop search embeddings tf fc rest cands0).1.length,
                some (refineLoop search embeddings tf fc rest cands0).1, []⟩,
              (refineLoop search embeddings tf fc rest cands0).1, ?_, ?_⟩
            · intro hmem
              exact seedStage_no_empty h2 (refineLoop_subset rest cands0 "" hmem)
            · rw [finalPhase_eq_some he]

theorem run_refineCalls {search : SearchCall → List Rec}
    {embeddings : String → Option Emb} {cats : List String} {fc : Option Nat}
    {tf : Option (String → Meta)} {c : SearchCall}
    (hc : c ∈ (filter_by_categories search embeddings cats fc tf).refineCalls) :
    ∃ L, c.filter_mb_sns = some L ∧ L ≠ [] ∧
      c.top_k = refineWidth fc (!c.metadata_filter.isEmpty) L.length := by
  cases cats with
  | nil => rw [filter_by_categories_nil] at hc; simp at hc
  | cons first_category rest =>
    cases h1 : embeddings first_category with
    | none =>
      rw [filter_by_categories_first_missing h1] at hc
      simp at hc
    | some e =>
      rw [filter_by_categories_first_some h1] at hc
      cases h2 : seedStage (search (seedCallOf e first_category fc tf))
          (!(getFilter tf first_category).isEmpty) fc with
      | none =>
        rw [seededPhase_eq_raise h2] at hc
        simp at hc
      | some cands0 =>
        by_cases h3 : cands0.length = 0
        · rw [seededPhase_eq_empty h2 h3] at hc
          simp at hc
        · rw [seededPhase_eq_final h2 h3, finalPhase_refineCalls] at hc
          exact refineLoop_calls rest cands0 c hc

theorem seedStage_eq_none {fr : List Rec} {hasF : Bool} {fc : Option Nat}
    (h : seedStage fr hasF fc = none) :
    ∃ r ∈ fr, truthyStr r.mb_sn ∧ r.score.isNone := by
  unfold seedStage at h
  split at h
  · simp at h
  · split at h
    · next hany =>
      obtain ⟨r, hr, hnone⟩ := List.any_eq_true.mp hany
      have hmem := List.mem_filter.mp hr
      exact ⟨r, hmem.1, by simpa using hmem.2, by simpa using hnone⟩
    · simp at h

theorem run_result_isSome {search : SearchCall → List Rec}
    {embeddings : String → Option Emb} {cats : List String} {fc : Option Nat}
    {tf : Option (String → Meta)}
    (h1 : ∀ c, cats.getLast? = some c → (embeddings c).isSome)
    (h2 : ∀ call : SearchCall, ∀ r ∈ search call, truthyStr r.mb_sn → r.score.isSome) :
    (filter_by_categories search embeddings cats fc tf).result.isSome := by
  cases cats with
  | nil => rw [filter_by_categories_nil]; rfl
  | cons first_category rest =>
    cases he1 : embeddings first_category with
    | none => rw [filter_by_categories_first_missing he1]; rfl
    | some e =>
      rw [filter_by_categories_first_some he1]
      cases h2s : seedStage (search (seedCallOf e first_category fc tf))
          (!(getFilter tf first_category).isEmpty) fc with
      | none =>
        obtain ⟨r, hr, ht, hn⟩ := seedStage_eq_none h2s
        have hsome := h2 _ r hr ht
        rw [Option.isNone_iff_eq_none.mp hn] at hsome
        simp at hsome
      | some cands0 =>
        by_cases h3 : cands0.length = 0
        · rw [seededPhase_eq_empty h2s h3]; rfl
        · rw [seededPhase_eq_final h2s h3]
          have hlast : (embeddings (List.getLastD rest first_category)).isSome := by
            apply h1
            rw [List.getLast?_cons, List.getLastD_eq_getLast?]
          cases hle : embeddings (List.getLastD rest first_category) with
          | none => rw [hle] at hlast; simp at hlast
          | some le => rw [finalPhase_eq_some hle]; rfl

/-! ## Claim theorems -/

/-- C6: for every input and every sequence of searcher responses (including
responses containing duplicate identifiers), the final list returned by
filter_by_categories contains no two entries with the same identifier. -/
theorem claim_C6_no_duplicate_identifiers (search : SearchCall → List Rec)
    (embeddings : String → Option Emb) (category_order : List String)
    (final_count : Option Nat) (topic_filters : Option (String → Meta)) :
    (((filter_by_categories search embeddings category_order final_count
        topic_filters).result.getD []).map Prod.fst).Nodup := by
  rcases run_result_shape search embeddings category_order final_count topic_filters
    with h | h | ⟨fr, cands, _, h⟩
  · rw [h]; simp
  · rw [h]; simp
  · rw [h]; exact nodup_ids_finalStage fr cands final_count

/-- C7: for every input and every sequence of searcher responses, the final
list returned by filter_by_categories is sorted by non-increasing score: for
all adjacent pairs (a, b) in the result, score(a) >= score(b). -/
theorem claim_C7_descending_scores (search : SearchCall → List Rec)
    (embeddings : String → Option Emb) (category_order : List String)
    (final_count : Option Nat) (topic_filters : Option (String → Meta)) :
    List.Chain' (fun a b => b.2 ≤ a.2)
      ((filter_by_categories search embeddings category_order final_count
        topic_filters).result.getD []) := by
  rcases run_result_shape search embeddings category_order final_count topic_filters
    with h | h | ⟨fr, cands, _, h⟩
  · rw [h]; simp
  · rw [h]; simp
  · rw [h]
    simp only [Option.getD_some]
    exact (pairwise_finalStage fr cands final_count).chain'

/-- C8: the candidate set after each refinement stage is a subset, as a set of
identifiers, of the candidate set entering that stage; composing stages, the
candidate list produced by the whole refinement loop only contains identifiers
of the list it started from. No identifier is ever introduced mid-pipeline,
whatever identifiers the searcher returns. -/
theorem claim_C8_subset_monotonicity :
    (∀ (results : List Rec) (hasF : Bool) (fc : Option Nat)
      (cands : List String) (s : String),
      s ∈ refineStep results hasF fc cands → s ∈ cands) ∧
    (∀ (search : SearchCall → List Rec) (embeddings : String → Option Emb)
      (tf : Option (String → Meta)) (fc : Option Nat)
      (cats cands : List String) (s : String),
      s ∈ (refineLoop search embeddings tf fc cats cands).1 → s ∈ cands) :=
  ⟨fun _ _ _ _ _ h => mem_refineStep_sub h,
   fun _ _ _ _ cats cands s h => refineLoop_subset cats cands s h⟩

/-- C8 witness: a concrete refinement stage keeping identifier x out of the
candidate list x, y. -/
theorem claim_C8_witness :
    ("x" ∈ refineStep [⟨some "x", some 1⟩] false none ["x", "y"]) ∧
    ("x" ∈ (["x", "y"] : List String)) :=
  ⟨by decide,
   claim_C8_subset_monotonicity.1 [⟨some "x", some 1⟩] false none ["x", "y"] "x"
     (by decide)⟩

/-- C9: for every call whose first category has an embedding, the seeding
call requests top_k = 10000 when the first category has a metadata filter
(regardless of final_count); 10000 when there is no metadata filter and
final_count is unset; and max(final_count * 10, 2000) when there is no
metadata filter and final_count is set. -/
theorem claim_C9_seed_width (search : SearchCall → List Rec)
    (embeddings : String → Option Emb) (first_category : String)
    (rest : List String) (final_count : Option Nat)
    (topic_filters : Option (String → Meta)) (e : Emb)
    (h1 : embeddings first_category = some e) :
    (filter_by_categories search embeddings (first_category :: rest) final_count
        topic_filters).seedCall =
      some ⟨e, first_category,
        (if (getFilter topic_filters first_category).isEmpty then
          (match final_count with
           | none => 10000
           | some k => max (k * 10) 2000)
         else 10000),
        none, getFilter topic_filters first_category⟩ := by
  rw [run_seedCall h1]
  unfold seedCallOf initialCount
  cases final_count <;>
    cases h : (getFilter topic_filters first_category).isEmpty <;>
    simp [h]

/-- C9 witness, also checking P7: with final_count = 100 and no metadata
filters, the seeding width is max(100 * 10, 2000) = 2000. -/
theorem claim_C9_witness :
    (embOnlyA "a" = some [1]) ∧
    (filter_by_categories searchNone embOnlyA ["a"] (some 100) none).seedCall =
      some ⟨[1], "a", 2000, none, []⟩ :=
  ⟨rfl, claim_C9_seed_width searchNone embOnlyA "a" [] (some 100) none [1] rfl⟩

/-- C10: every refinement-stage call carries the current candidate list L as
its allow-list, L is non-empty, and its top_k is min(len(L) * 3, 10000) when
final_count is unset and the stage has a metadata filter, min(len(L) * 2,
10000) otherwise, floored at 1. -/
theorem claim_C10_refine_width (search : SearchCall → List Rec)
    (embeddings : String → Option Emb) (category_order : List String)
    (final_count : Option Nat) (topic_filters : Option (String → Meta))
    (c : SearchCall)
    (hc : c ∈ (filter_by_categories search embeddings category_order final_count
      topic_filters).refineCalls) :
    ∃ L, c.filter_mb_sns = some L ∧ L ≠ [] ∧
      c.top_k = max
        (if final_count.isNone && !c.metadata_filter.isEmpty then
          min (L.length * 3) 10000
         else min (L.length * 2) 10000) 1 := by
  obtain ⟨L, h1, h2, h3⟩ := run_refineCalls hc
  exact ⟨L, h1, h2, by rw [h3]; rfl⟩

/-- C10 witness: the one refinement call of a concrete two-category run. -/
theorem claim_C10_witness :
    ((⟨[2], "b", 2, some ["x"], []⟩ : SearchCall) ∈
      (filter_by_categories searchCatAOnly embAB ["a", "b"] none none).refineCalls) ∧
    (∃ L, (⟨[2], "b", 2, some ["x"], []⟩ : SearchCall).filter_mb_sns = some L ∧
      L ≠ [] ∧
      (⟨[2], "b", 2, some ["x"], []⟩ : SearchCall).top_k = max
        (if (none : Option Nat).isNone &&
            !(⟨[2], "b", 2, some ["x"], []⟩ : SearchCall).metadata_filter.isEmpty then
          min (L.length * 3) 10000
         else min (L.length * 2) 10000) 1) :=
  ⟨by decide,
   claim_C10_refine_width searchCatAOnly embAB ["a", "b"] none none _ (by decide)⟩

/-- C1 counterexample: category_order has two entries, the first category's
embedding is present, the second (and last) category's embedding is absent,
and the seeding search returns one well-formed candidate; the claim says the
call must not raise, but the final re-query indexes
embeddings[category_order[-1]] unguarded (line 190) and raises KeyError,
modelled by result = none. -/
theorem claim_C1_counterexample :
    (filter_by_categories searchConstX embOnlyA ["a", "b"] none none).result
      = none := rfl

/-- C1 (amended): a later category whose embedding is absent is skipped with
the candidates passing through unchanged; and the call does not raise
provided the last category's embedding is present in embeddings and every
record the searcher returns with a truthy identifier carries a score (the
unfiltered seeding sort reads the score key unguarded). When the absent later
category is the last one and candidates survive seeding, the final re-query
raises KeyError instead. -/
theorem claim_C1_later_missing_embedding (search : SearchCall → List Rec)
    (embeddings : String → Option Emb) (tf : Option (String → Meta))
    (fc : Option Nat) :
    (∀ (cat : String) (restCats cands : List String),
      embeddings cat = none →
      refineLoop search embeddings tf fc (cat :: restCats) cands =
        refineLoop search embeddings tf fc restCats cands) ∧
    (∀ cats : List String,
      (∀ c, cats.getLast? = some c → (embeddings c).isSome) →
      (∀ call : SearchCall, ∀ r ∈ search call, truthyStr r.mb_sn → r.score.isSome) →
      (filter_by_categories search embeddings cats fc tf).result.isSome) :=
  ⟨fun _ _ _ h => refineLoop_skip h,
   fun _ h1 h2 => run_result_isSome h1 h2⟩

/-- C1 witness: category b's embedding is absent, c's (the last) is present;
the b stage is skipped with candidates unchanged and the run returns without
raising. -/
theorem claim_C1_witness :
    (embAC "b" = none) ∧
    (refineLoop searchConstX embAC none none ["b", "c"] ["x"] =
      refineLoop searchConstX embAC none none ["c"] ["x"]) ∧
    (filter_by_categories searchConstX embAC ["a", "b", "c"] none none).result.isSome := by
  refine ⟨rfl,
    (claim_C1_later_missing_embedding searchConstX embAC none none).1 "b" ["c"] ["x"] rfl,
    (claim_C1_later_missing_embedding searchConstX embAC none none).2 ["a", "b", "c"]
      ?_ ?_⟩
  · intro c hc
    have : c = "c" := by
      rw [show (["a", "b", "c"] : List String).getLast? = some "c" from rfl] at hc
      injection hc with hc
      exact hc.symm
    subst this
    rfl
  · intro call r hr ht
    have : r = ⟨some "x", some 5⟩ := by
      simpa [searchConstX] using hr
    subst this
    rfl

/-- C2 counterexample: identifier x survives to the final ranking step (it is
the whole Candidate Set entering it), the final searcher response omits it,
and the emitted result is empty rather than containing x with score 0.0: the
claim's defensive default is unreachable because survivors absent from the
final response are dropped (lines 196-207). -/
theorem claim_C2_counterexample :
    (filter_by_categories searchSeedOnlyX embOnlyA ["a"] none none).survivors
      = some ["x"] ∧
    (filter_by_categories searchSeedOnlyX embOnlyA ["a"] none none).result
      = some [] := ⟨rfl, rfl⟩

/-- C2 (amended): whenever the run reaches the final ranking step with
candidate list cands and the last category's embedding is present, the final
re-query targets category_order[-1] with top_k = |cands|, cands as allow-list
and no metadata filter, and the emitted result is exactly finalStage of that
response; moreover an identifier appears in the pre-truncation emission iff it
is a survivor that the final response actually names — survivors absent from
the final response are dropped, not defaulted to score 0.0. -/
theorem claim_C2_final_requery (search : SearchCall → List Rec)
    (embeddings : String → Option Emb) (first_category : String)
    (rest : List String) (fc : Option Nat) (tf : Option (String → Meta)) :
    (∀ (cands : List String) (e : Emb),
      (filter_by_categories search embeddings (first_category :: rest) fc
        tf).survivors = some cands →
      embeddings (List.getLastD rest first_category) = some e →
      (filter_by_categories search embeddings (first_category :: rest) fc
        tf).finalCall =
        some ⟨e, List.getLastD rest first_category, cands.length, some cands, []⟩ ∧
      (filter_by_categories search embeddings (first_category :: rest) fc
        tf).result =
        some (finalStage
          (search ⟨e, List.getLastD rest first_category, cands.length,
            some cands, []⟩) cands fc)) ∧
    (∀ (final_results : List Rec) (cands : List String) (s : String),
      s ∈ (finalStage final_results cands none).map Prod.fst ↔
        s ∈ cands ∧ ∃ r ∈ final_results, r.mb_sn.getD "" = s) :=
  ⟨fun _ _ hs he => run_final_shape hs he,
   fun _ _ _ => mem_ids_finalStage_none⟩

/-- C2 witness: a one-category run whose final call carries the surviving
allow-list x with top_k 1, plus the membership characterisation at a
concrete final response. -/
theorem claim_C2_witness :
    ((filter_by_categories searchSeedOnlyX embOnlyA ["a"] none none).survivors
      = some ["x"]) ∧
    ((filter_by_categories searchSeedOnlyX embOnlyA ["a"] none none).finalCall
      = some ⟨[1], "a", 1, some ["x"], []⟩) ∧
    (("x" ∈ (finalStage [⟨some "x", some 5⟩] ["x"] none).map Prod.fst) ↔
      ("x" ∈ (["x"] : List String) ∧
        ∃ r ∈ [(⟨some "x", some 5⟩ : Rec)], r.mb_sn.getD "" = "x")) := by
  refine ⟨rfl, ?_, ?_⟩
  · exact ((claim_C2_final_requery searchSeedOnlyX embOnlyA "a" [] none none).1
      ["x"] [1] rfl rfl).1
  · exact (claim_C2_final_requery searchSeedOnlyX embOnlyA "a" [] none none).2
      [⟨some "x", some 5⟩] ["x"] "x"

/-- C3 counterexample: the refinement stage for category b empties the
candidate set, yet the final re-query is still issued with the empty
allow-list (filter_mb_sns = some [] and top_k = 0), falsifying the claim that
the component never invokes the searcher with an empty allow-list. -/
theorem claim_C3_counterexample :
    (filter_by_categories searchCatAOnly embAB ["a", "b"] none none).finalCall
      = some ⟨[2], "b", 0, some [], []⟩ ∧
    (filter_by_categories searchCatAOnly embAB ["a", "b"] none none).result
      = some [] := ⟨rfl, rfl⟩

/-- C3 (amended): once the candidate set is empty the refinement loop issues
no further calls and leaves it empty; no refinement-stage call ever carries an
empty allow-list; but the final confirmation re-query is still issued, with
the empty allow-list and top_k 0, and — when the last category's embedding is
present — the run returns the empty result. -/
theorem claim_C3_empty_candidates (search : SearchCall → List Rec)
    (embeddings : String → Option Emb) (tf : Option (String → Meta))
    (fc : Option Nat) :
    (∀ cats, refineLoop search embeddings tf fc cats [] = ([], [])) ∧
    (∀ (cats : List String) (c : SearchCall),
      c ∈ (filter_by_categories search embeddings cats fc tf).refineCalls →
      c.filter_mb_sns ≠ some []) ∧
    (∀ (first_category : String) (rest : List String) (e : Emb),
      (filter_by_categories search embeddings (first_category :: rest) fc
        tf).survivors = some [] →
      embeddings (List.getLastD rest first_category) = some e →
      (filter_by_categories search embeddings (first_category :: rest) fc
        tf).finalCall =
        some ⟨e, List.getLastD rest first_category, 0, some [], []⟩ ∧
      (filter_by_categories search embeddings (first_category :: rest) fc
        tf).result = some []) := by
  refine ⟨refineLoop_nil_cands search embeddings tf fc, ?_, ?_⟩
  · intro cats c hc heq
    obtain ⟨L, h1, h2, _⟩ := run_refineCalls hc
    rw [h1] at heq
    injection heq with heq
    exact h2 heq
  · intro first_category rest e hs he
    have h := run_final_shape hs he
    refine ⟨h.1, ?_⟩
    rw [h.2, finalStage_nil]

/-- C3 witness: the concrete two-category run in which refinement empties the
candidate set; its refinement call keeps a non-empty allow-list, the loop is
inert on the empty set, and the final call and empty result follow. -/
theorem claim_C3_witness :
    (refineLoop searchCatAOnly embAB none none ["b"] [] = ([], [])) ∧
    ((filter_by_categories searchCatAOnly embAB ["a", "b"] none none).finalCall
      = some ⟨[2], "b", 0, some [], []⟩) ∧
    ((filter_by_categories searchCatAOnly embAB ["a", "b"] none none).result
      = some []) := by
  refine ⟨(claim_C3_empty_candidates searchCatAOnly embAB none none).1 ["b"],
    ?_, ?_⟩
  · exact ((claim_C3_empty_candidates searchCatAOnly embAB none none).2.2
      "a" ["b"] [2] rfl rfl).1
  · exact ((claim_C3_empty_candidates searchCatAOnly embAB none none).2.2
      "a" ["b"] [2] rfl rfl).2

/-- C4 counterexample: with no metadata filter, a seeding record that has an
identifier but no score makes sorted(..., key=lambda x: x["score"]) raise
KeyError (line 101, modelled by result = none): a missing score is not
tolerated there, contradicting the claim that a missing score defaults to 0.0
in every stage. -/
theorem claim_C4_counterexample :
    (filter_by_categories searchNoScore embOnlyA ["a"] none none).result
      = none := rfl

/-- C4 (amended): records whose identifier is missing or empty are skipped by
every score-collection fold and never cause a failure; the run cannot raise
when the last category's embedding is present and every searcher record with
a truthy identifier carries a score (the only malformation not tolerated is a
missing score on a kept record at the unfiltered seeding sort); and every
emitted identifier is non-empty. -/
theorem claim_C4_malformed_records (search : SearchCall → List Rec)
    (embeddings : String → Option Emb) (cats : List String) (fc : Option Nat)
    (tf : Option (String → Meta)) :
    (∀ (keep : String → Bool) (r : Rec) (l : List Rec),
      truthyStr r.mb_sn = false → keep "" = false →
      bestFold (r :: l) keep = bestFold l keep) ∧
    ((∀ c, cats.getLast? = some c → (embeddings c).isSome) →
     (∀ call : SearchCall, ∀ r ∈ search call, truthyStr r.mb_sn → r.score.isSome) →
     (filter_by_categories search embeddings cats fc tf).result.isSome) ∧
    (∀ (res : List (String × Int)) (p : String × Int),
      (filter_by_categories search embeddings cats fc tf).result = some res →
      p ∈ res → p.1 ≠ "") := by
  refine ⟨?_, fun h1 h2 => run_result_isSome h1 h2, ?_⟩
  · intro keep r l ht hk
    have hgd : r.mb_sn.getD "" = "" := by
      cases hm : r.mb_sn with
      | none => rfl
      | some s =>
        rw [hm] at ht
        simp [truthyStr] at ht
        simpa using ht
    unfold bestFold
    rw [List.foldl_cons]
    have hstep : bestStep keep [] r = [] := by
      unfold bestStep
      rw [hgd, hk]
      simp
    rw [hstep]
  · intro res p hres hp
    rcases run_result_shape search embeddings cats fc tf with h | h | ⟨fr, cands, hnc, h⟩
    · rw [h] at hres
      exact absurd hres (by simp)
    · rw [h] at hres
      injection hres with hres
      subst hres
      simp at hp
    · rw [h] at hres
      injection hres with hres
      subst hres
      intro hpe
      exact hnc (hpe ▸ mem_finalStage_sub hp)

/-- C4 witness: a record with an empty identifier is dropped by the fold; a
run whose records are well-formed returns without raising; and its emitted
identifier is non-empty. -/
theorem claim_C4_witness :
    (bestFold [⟨some "", some 3⟩, ⟨some "y", some 2⟩] (fun s => s ≠ "") =
      bestFold [⟨some "y", some 2⟩] (fun s => s ≠ "")) ∧
    (filter_by_categories searchOnlyY embOnlyA ["a"] none none).result.isSome ∧
    ("y", (2 : Int)).1 ≠ "" := by
  refine ⟨?_, ?_, ?_⟩
  · exact (claim_C4_malformed_records searchOnlyY embOnlyA ["a"] none none).1
      (fun s => s ≠ "") ⟨some "", some 3⟩ [⟨some "y", some 2⟩] (by decide) (by decide)
  · refine (claim_C4_malformed_records searchOnlyY embOnlyA ["a"] none none).2.1 ?_ ?_
    · intro c hc
      have : c = "a" := by
        rw [show (["a"] : List String).getLast? = some "a" from rfl] at hc
        injection hc with hc
        exact hc.symm
      subst this
      rfl
    · intro call r hr ht
      have : r = ⟨some "y", some 2⟩ := by
        simpa [searchOnlyY] using hr
      subst this
      rfl
  · exact (claim_C4_malformed_records searchOnlyY embOnlyA ["a"] none none).2.2
      [("y", 2)] ("y", 2) rfl (by decide)

/-- C5 counterexample: with final_count = 1, two candidates (x and y) survive
to the final ranking step, but the final searcher response names neither, so
the returned list has length 0, not 1: survivors absent from the final
response are dropped before truncation. -/
theorem claim_C5_counterexample :
    (filter_by_categories searchSeedXY embOnlyA ["a"] (some 1) none).survivors
      = some ["x", "y"] ∧
    (filter_by_categories searchSeedXY embOnlyA ["a"] (some 1) none).result
      = some [] := ⟨rfl, rfl⟩

/-- C5 (amended): when final_count = k is set and more than k candidates
receive a score in the final response (the pre-truncation emission is longer
than k), the returned list has length exactly k, each kept entry is one of
the emitted entries, and every kept entry's score is at least every dropped
entry's score (ties broken by sort order). -/
theorem claim_C5_truncation (final_results : List Rec) (cands : List String)
    (k : Nat) (h : k < (finalStage final_results cands none).length) :
    (finalStage final_results cands (some k)).length = k ∧
    (∀ p ∈ finalStage final_results cands (some k),
      p ∈ finalStage final_results cands none) ∧
    (∀ p ∈ finalStage final_results cands (some k),
      ∀ q ∈ (finalStage final_results cands none).drop k, q.2 ≤ p.2) := by
  rw [finalStage_take]
  refine ⟨?_, ?_, ?_⟩
  · rw [List.length_take]
    omega
  · intro p hp
    exact (List.take_sublist k _).subset hp
  · intro p hp q hq
    have hpw := pairwise_finalStage final_results cands none
    rw [← List.take_append_drop k (finalStage final_results cands none)] at hpw
    exact (List.pairwise_append.mp hpw).2.2 p hp q hq

/-- C5 witness: two scored survivors, final_count = 1, exactly one entry kept
and it outranks the dropped one. -/
theorem claim_C5_witness :
    (1 < (finalStage [⟨some "x", some 5⟩, ⟨some "y", some 4⟩] ["x", "y"]
      none).length) ∧
    ((finalStage [⟨some "x", some 5⟩, ⟨some "y", some 4⟩] ["x", "y"]
      (some 1)).length = 1) :=
  ⟨by decide,
   (claim_C5_truncation [⟨some "x", some 5⟩, ⟨some "y", some 4⟩] ["x", "y"] 1
     (by decide)).1⟩
